import Mathlib

/-!
Shallow embedding of the core of the `webgraph-rs` repository:

* `src/codes/unbuffered_bit_stream_reader.rs` — the unbuffered bit reader
  (`UnbufferedBitStreamRead`) in its two bit orders `M2L` and `L2M`:
  `peek_bits`, `read_bits`, `skip_bits`, `seek_bit`, `read_unary`.
* `src/graph/bvgraph/bvgraph_sequential.rs` — the sequential BVGraph decoder
  (`WebgraphSequentialIter::get_successors_iter_priv`, the `Lender` `next`
  implementation and `BVGraphSequential::iter_from`).

The backing word stream is modelled as a total function `Nat → Nat`
(the word at each word index, after endian correction); per the repository
documentation the backing is infinite-zero-padded, so `set_position` and
`read_next_word` never fail.  Machine `u64` arithmetic is modelled on `Nat`
with explicit `% 2 ^ 64` exactly where Rust wrapping occurs.

The abstract `BVGraphCodesReader` of the decoder is modelled as the sequence
of already-decoded code values it returns, a `List Nat` consumed one value
per `read_*` call.  Rust operations that panic (out-of-range slice indexing,
`usize` subtraction underflow) are modelled by `Option.none`.
-/

namespace Webgraph

/-! ## Bit reader (`unbuffered_bit_stream_reader.rs`) -/

/-- Error kinds distinguished by the spec; the bit reader can only ever
produce `badArgument` (from `bail!` on `n_bits > 64`). -/
inductive BitReadErr where
  | badArgument
  | unexpectedEof
  | ioError
deriving DecidableEq, Repr

/-- `u64::leading_zeros`, scanning bits `k-1, k-2, …, 0` from the top. -/
def lzAux (w : Nat) : Nat → Nat
  | 0 => 0
  | k + 1 => if w.testBit k then 0 else 1 + lzAux w k

/-- Leading zeros of a 64-bit word (64 for the zero word). -/
def leadingZeros64 (w : Nat) : Nat := lzAux w 64

/-- `u64::trailing_zeros`, scanning bits `i, i+1, …` from the bottom. -/
def ctzFrom (w : Nat) : Nat → Nat → Nat
  | _, 0 => 0
  | i, fuel + 1 => if w.testBit i then 0 else 1 + ctzFrom w (i + 1) fuel

/-- Trailing zeros of a 64-bit word (64 for the zero word). -/
def trailingZeros64 (w : Nat) : Nat := ctzFrom w 0 64

/-- The bit the M2L (MSB-first) reader delivers at global bit index `i`:
bit `63 - i % 64` of word `i / 64`. -/
def bitM2L (stream : Nat → Nat) (i : Nat) : Bool :=
  (stream (i / 64)).testBit (63 - i % 64)

/-- The bit the L2M (LSB-first) reader delivers at global bit index `i`:
bit `i % 64` of word `i / 64`. -/
def bitL2M (stream : Nat → Nat) (i : Nat) : Bool :=
  (stream (i / 64)).testBit (i % 64)

/-- `BitRead<M2L>::peek_bits` of `UnbufferedBitStreamRead`. -/
def peekBitsM2L (stream : Nat → Nat) (bit_idx n_bits : Nat) : Except BitReadErr Nat :=
  if 64 < n_bits then .error .badArgument
  else if n_bits = 0 then .ok 0
  else
    let in_word_offset := bit_idx % 64
    if in_word_offset + n_bits ≤ 64 then
      let word := stream (bit_idx / 64)
      .ok (((word <<< in_word_offset) % 2 ^ 64) >>> (64 - n_bits))
    else
      let high_word := stream (bit_idx / 64)
      let low_word := stream (bit_idx / 64 + 1)
      let shamt1 := 64 - n_bits
      let shamt2 := 128 - in_word_offset - n_bits
      .ok ((((high_word <<< in_word_offset) % 2 ^ 64) >>> shamt1) ||| (low_word >>> shamt2))

/-- `BitRead<M2L>::skip_bits`: unconditionally advances the bit index. -/
def skipBitsM2L (bit_idx n_bits : Nat) : Except BitReadErr Nat :=
  .ok (bit_idx + n_bits)

/-- `BitRead<M2L>::read_bits`: peek, then skip; returns (value, new index). -/
def readBitsM2L (stream : Nat → Nat) (bit_idx n_bits : Nat) :
    Except BitReadErr (Nat × Nat) :=
  (peekBitsM2L stream bit_idx n_bits).map fun v => (v, bit_idx + n_bits)

/-- `BitRead<L2M>::peek_bits` of `UnbufferedBitStreamRead`. -/
def peekBitsL2M (stream : Nat → Nat) (bit_idx n_bits : Nat) : Except BitReadErr Nat :=
  if 64 < n_bits then .error .badArgument
  else if n_bits = 0 then .ok 0
  else
    let in_word_offset := bit_idx % 64
    if in_word_offset + n_bits ≤ 64 then
      let word := stream (bit_idx / 64)
      let shamt := 64 - n_bits
      .ok (((word <<< (shamt - in_word_offset)) % 2 ^ 64) >>> shamt)
    else
      let low_word := stream (bit_idx / 64)
      let high_word := stream (bit_idx / 64 + 1)
      let shamt1 := 128 - in_word_offset - n_bits
      let shamt2 := 64 - n_bits
      .ok ((((high_word <<< shamt1) % 2 ^ 64) >>> shamt2) ||| (low_word >>> in_word_offset))

/-- `BitRead<L2M>::skip_bits`: unconditionally advances the bit index. -/
def skipBitsL2M (bit_idx n_bits : Nat) : Except BitReadErr Nat :=
  .ok (bit_idx + n_bits)

/-- `BitRead<L2M>::read_bits`: peek, then skip; returns (value, new index). -/
def readBitsL2M (stream : Nat → Nat) (bit_idx n_bits : Nat) :
    Except BitReadErr (Nat × Nat) :=
  (peekBitsL2M stream bit_idx n_bits).map fun v => (v, bit_idx + n_bits)

/-- The loop of `BitRead<M2L>::read_unary` (non-table path): count leading
zeros of the current word window; if the terminating one bit is inside the
window return, otherwise pull the next word.  `fuel` bounds the number of
loop iterations (the Rust loop runs unboundedly on an all-zero stream). -/
def unaryLoopM2L (stream : Nat → Nat) :
    Nat → Nat → Nat → Nat → Nat → Option Nat
  | 0, _, _, _, _ => none
  | fuel + 1, word, bits_in_word, total, widx =>
    let zeros := leadingZeros64 word
    if zeros < bits_in_word then some (total + zeros)
    else unaryLoopM2L stream fuel (stream widx) 64 (total + bits_in_word) (widx + 1)

/-- `BitRead<M2L>::read_unary` (non-table path): returns (value, new bit index). -/
def readUnaryM2L (stream : Nat → Nat) (bit_idx fuel : Nat) : Option (Nat × Nat) :=
  let in_word_offset := bit_idx % 64
  let word := (stream (bit_idx / 64) <<< in_word_offset) % 2 ^ 64
  (unaryLoopM2L stream fuel word (64 - in_word_offset) 0 (bit_idx / 64 + 1)).map
    fun t => (t, bit_idx + t + 1)

/-- The loop of `BitRead<L2M>::read_unary` (non-table path). -/
def unaryLoopL2M (stream : Nat → Nat) :
    Nat → Nat → Nat → Nat → Nat → Option Nat
  | 0, _, _, _, _ => none
  | fuel + 1, word, bits_in_word, total, widx =>
    let zeros := trailingZeros64 word
    if zeros < bits_in_word then some (total + zeros)
    else unaryLoopL2M stream fuel (stream widx) 64 (total + bits_in_word) (widx + 1)

/-- `BitRead<L2M>::read_unary` (non-table path): returns (value, new bit index). -/
def readUnaryL2M (stream : Nat → Nat) (bit_idx fuel : Nat) : Option (Nat × Nat) :=
  let in_word_offset := bit_idx % 64
  let word := stream (bit_idx / 64) >>> in_word_offset
  (unaryLoopL2M stream fuel word (64 - in_word_offset) 0 (bit_idx / 64 + 1)).map
    fun t => (t, bit_idx + t + 1)

/-- The mutable state of `UnbufferedBitStreamRead`: just the bit index
(the backing stream is immutable and shared). -/
structure UBitState where
  bit_idx : Nat
deriving DecidableEq, Repr

/-- `BitSeek::seek_bit`: sets the bit index (always succeeds). -/
def seek_bit (s : UBitState) (bit_index : Nat) : UBitState :=
  { s with bit_idx := bit_index }

/-- `BitSeek::get_position`. -/
def get_position (s : UBitState) : Nat := s.bit_idx

/-- One linear operation on the bit reader: a skip, a bounded read, or a
unary read (with loop fuel). -/
inductive LinStep where
  | skipStep (n : Nat)
  | readStep (n : Nat)
  | unaryStep (fuel : Nat)

/-- Apply one linear operation to an M2L reader state. -/
def stepM2L (stream : Nat → Nat) (s : UBitState) : LinStep → Option UBitState
  | .skipStep n =>
    match skipBitsM2L s.bit_idx n with
    | .ok p => some ⟨p⟩
    | .error _ => none
  | .readStep n =>
    match readBitsM2L stream s.bit_idx n with
    | .ok r => some ⟨r.2⟩
    | .error _ => none
  | .unaryStep fuel => (readUnaryM2L stream s.bit_idx fuel).map fun r => ⟨r.2⟩

/-- Apply a sequence of linear operations to an M2L reader state. -/
def runM2L (stream : Nat → Nat) : UBitState → List LinStep → Option UBitState
  | s, [] => some s
  | s, op :: ops => (stepM2L stream s op).bind fun s₂ => runM2L stream s₂ ops

/-- Apply one linear operation to an L2M reader state. -/
def stepL2M (stream : Nat → Nat) (s : UBitState) : LinStep → Option UBitState
  | .skipStep n =>
    match skipBitsL2M s.bit_idx n with
    | .ok p => some ⟨p⟩
    | .error _ => none
  | .readStep n =>
    match readBitsL2M stream s.bit_idx n with
    | .ok r => some ⟨r.2⟩
    | .error _ => none
  | .unaryStep fuel => (readUnaryL2M stream s.bit_idx fuel).map fun r => ⟨r.2⟩

/-- Apply a sequence of linear operations to an L2M reader state. -/
def runL2M (stream : Nat → Nat) : UBitState → List LinStep → Option UBitState
  | s, [] => some s
  | s, op :: ops => (stepL2M stream s op).bind fun s₂ => runL2M stream s₂ ops

/-! ## Sequential BVGraph decoder (`bvgraph_sequential.rs`) -/

/-- Modelled from the spec, §4.3: `nat2int(u) = (u >> 1) if (u & 1) == 0
else -((u+1) >> 1)`.  The function lives in `crate::utils`, outside the
provided sources. -/
def nat2int (u : Nat) : Int :=
  if u % 2 = 0 then ((u / 2 : Nat) : Int) else -(((u + 1) / 2 : Nat) : Int)

/-- Rust `as usize` on an `i64` value: two's-complement wrap into `[0, 2^64)`. -/
def wrapUsize (x : Int) : Nat := (x % (2 ^ 64 : Int)).toNat

/-- One `read_*` call of the abstract `BVGraphCodesReader`, modelled as
consuming the next already-decoded code value. -/
def readToken : List Nat → Nat × List Nat
  | [] => (0, [])
  | t :: ts => (t, ts)

/-- `&l[a..b]` on a Rust slice (bounds already checked by the caller). -/
def listSlice (l : List Nat) (a b : Nat) : List Nat := (l.take b).drop a

/-- The `for block_id in 1..number_of_blocks` loop of
`get_successors_iter_priv`: maintains the running cut position `idx`,
copies the even-indexed blocks, and fails (Rust slice panic) when a copied
block overruns `neighbours`. -/
def blocksLoop (neighbours : List Nat) :
    Nat → Nat → Nat → List Nat → List Nat → Option (List Nat × Nat × List Nat)
  | 0, _, idx, acc, ts => some (acc, idx, ts)
  | rem + 1, block_id, idx, acc, ts =>
    let p := readToken ts
    let e := idx + p.1 + 1
    if block_id % 2 = 0 then
      if e ≤ neighbours.length then
        blocksLoop neighbours rem (block_id + 1) e (acc ++ listSlice neighbours idx e) p.2
      else none
    else
      blocksLoop neighbours rem (block_id + 1) e acc p.2

/-- The reference-copy step of `get_successors_iter_priv` (entered when
`ref_delta != 0`): resolve the reference list from the window, read the
block count, and copy either everything (count 0) or the even-indexed
blocks plus — when the block count is even — the tail.  `none` models the
Rust panics (`node_id - ref_delta` underflow, slice out of range). -/
def copyPhase (window : Nat → List Nat) (node_id ref_delta : Nat) (ts : List Nat) :
    Option (List Nat × List Nat) :=
  if ref_delta ≤ node_id then
    let neighbours := window (node_id - ref_delta)
    let p := readToken ts
    let number_of_blocks := p.1
    if number_of_blocks = 0 then some (neighbours, p.2)
    else
      let q := readToken p.2
      let idx := q.1
      if idx ≤ neighbours.length then
        (blocksLoop neighbours (number_of_blocks - 1) 1 idx (neighbours.take idx) q.2).bind
          fun r =>
            if number_of_blocks % 2 = 0 then
              if r.2.1 ≤ neighbours.length then
                some (r.1 ++ neighbours.drop r.2.1, r.2.2)
              else none
            else some (r.1, r.2.2)
      else none
  else none

/-- The `for _ in 1..number_of_intervals` loop of `get_successors_iter_priv`:
each iteration reads an interval-start gap and a length, pushes the
half-open range, and advances `start` past it. -/
def intervalsLoop (min_interval_length : Nat) :
    Nat → Nat → List Nat → List Nat → List Nat × List Nat
  | 0, _, acc, ts => (acc, ts)
  | rem + 1, start, acc, ts =>
    let p := readToken ts
    let start₂ := start + 1 + p.1
    let q := readToken p.2
    let delta := q.1 + min_interval_length
    intervalsLoop min_interval_length rem (start₂ + delta) (acc ++ List.range' start₂ delta) q.2

/-- The interval step of `get_successors_iter_priv`: read the interval
count; when nonzero, the first interval starts at
`(node_id as i64 + nat2int(start_code)) as usize` with length
`len_code + min_interval_length`, and the loop handles the rest. -/
def intervalPhase (node_id min_interval_length : Nat) (ts : List Nat) :
    List Nat × List Nat :=
  let p := readToken ts
  let number_of_intervals := p.1
  if number_of_intervals = 0 then ([], p.2)
  else
    let q := readToken p.2
    let start := wrapUsize ((node_id : Int) + nat2int q.1)
    let r := readToken q.2
    let delta := r.1 + min_interval_length
    intervalsLoop min_interval_length (number_of_intervals - 1) (start + delta)
      (List.range' start delta) r.2

/-- The `for _ in 1..nodes_left_to_decode` loop of
`get_successors_iter_priv`: each residual is the previous one plus one
plus the next residual code. -/
def residualsLoop : Nat → Nat → List Nat → List Nat → List Nat × List Nat
  | 0, _, acc, ts => (acc, ts)
  | rem + 1, extra, acc, ts =>
    let p := readToken ts
    let extra₂ := extra + 1 + p.1
    residualsLoop rem extra₂ (acc ++ [extra₂]) p.2

/-- The residual step of `get_successors_iter_priv` (entered with
`count = degree - results.len() ≥ 1`): the first residual is
`(node_id as i64 + nat2int(first_residual_code)) as usize`. -/
def residualPhase (node_id count : Nat) (ts : List Nat) : List Nat × List Nat :=
  let p := readToken ts
  let extra := wrapUsize ((node_id : Int) + nat2int p.1)
  residualsLoop (count - 1) extra [extra] p.2

/-- `results.sort()`: Rust's stable ascending sort. -/
def sortNat (l : List Nat) : List Nat := l.mergeSort fun a b => decide (a ≤ b)

/-- `get_successors_iter_priv` from the second
`let nodes_left_to_decode = degree - results.len()` on: the residual step
guarded by `nodes_left_to_decode != 0`, then `results.sort()`.  `none`
models the `usize` underflow when the partial result already exceeds the
degree. -/
def decodeAfterIntervals (degree node_id : Nat) (res ts : List Nat) :
    Option (List Nat × List Nat) :=
  if degree < res.length then none
  else
    let st :=
      if degree - res.length ≠ 0 then
        let p := residualPhase node_id (degree - res.length) ts
        (res ++ p.1, p.2)
      else (res, ts)
    some (sortNat st.1, st.2)

/-- `get_successors_iter_priv` from the first
`let nodes_left_to_decode = degree - results.len()` on: the interval step
guarded by `nodes_left_to_decode != 0 && min_interval_length != 0`,
followed by `decodeAfterIntervals`. -/
def decodeAfterCopy (degree min_interval_length node_id : Nat) (res ts : List Nat) :
    Option (List Nat × List Nat) :=
  if degree < res.length then none
  else
    let st :=
      if degree - res.length ≠ 0 ∧ min_interval_length ≠ 0 then
        let p := intervalPhase node_id min_interval_length ts
        (res ++ p.1, p.2)
      else (res, ts)
    decodeAfterIntervals degree node_id st.1 st.2

/-- `WebgraphSequentialIter::get_successors_iter_priv`: read the degree
(empty list when zero), read the reference offset when the compression
window is nonzero, run the reference-copy step when it is nonzero, then
intervals, residuals, and the final sort. -/
def getSuccessorsIterPriv (compression_window min_interval_length : Nat)
    (window : Nat → List Nat) (node_id : Nat) (ts : List Nat) :
    Option (List Nat × List Nat) :=
  let p := readToken ts
  let degree := p.1
  if degree = 0 then some ([], p.2)
  else
    let q := if compression_window ≠ 0 then readToken p.2 else (0, p.2)
    let ref_delta := q.1
    let step1 :=
      if ref_delta ≠ 0 then copyPhase window node_id ref_delta q.2
      else some ([], q.2)
    step1.bind fun r => decodeAfterCopy degree min_interval_length node_id r.1 r.2

/-- The state of `WebgraphSequentialIter`.  The circular backref buffer
(`CircularBufferVec`, outside the provided sources) is modelled from the
spec, §3: a buffer "holding the most recent W+1 decoded successor lists
keyed by node id", here a total map from node id to its decoded list. -/
structure IterState where
  tokens : List Nat
  window : Nat → List Nat
  compression_window : Nat
  min_interval_length : Nat
  number_of_nodes : Nat
  current_node : Nat

/-- `Lender::next` of `WebgraphSequentialIter`: `None` once
`current_node ≥ number_of_nodes`; otherwise decode the current node,
store its list in the window, advance, and yield `(node, list)`. -/
def iterNext (s : IterState) : Option ((Nat × List Nat) × IterState) :=
  if s.number_of_nodes ≤ s.current_node then none
  else
    (getSuccessorsIterPriv s.compression_window s.min_interval_length s.window
        s.current_node s.tokens).map
      fun r =>
        ((s.current_node, r.1),
         { s with
            tokens := r.2
            window := fun u => if u = s.current_node then r.1 else s.window u
            current_node := s.current_node + 1 })

/-- Run the iterator `k` steps, collecting the yielded pairs. -/
def runIter : IterState → Nat → Option (List (Nat × List Nat) × IterState)
  | s, 0 => some ([], s)
  | s, k + 1 =>
    (iterNext s).bind fun y =>
      (runIter y.2 k).map fun r => (y.1 :: r.1, r.2)

/-- One `iter.next();` call of `BVGraphSequential::iter_from`, with the
yielded value discarded: past the last node the call returns `None` and
leaves the state unchanged. -/
def skipNode (s : IterState) : Option IterState :=
  if s.number_of_nodes ≤ s.current_node then some s
  else
    (getSuccessorsIterPriv s.compression_window s.min_interval_length s.window
        s.current_node s.tokens).map
      fun r =>
        { s with
            tokens := r.2
            window := fun u => if u = s.current_node then r.1 else s.window u
            current_node := s.current_node + 1 }

/-- `BVGraphSequential::iter_from`: start a fresh iterator and discard the
first `from` nodes. -/
def iterFrom (s : IterState) : Nat → Option IterState
  | 0 => some s
  | k + 1 => (skipNode s).bind fun s₂ => iterFrom s₂ k

/-! ## Claim-side reference functions (written from the claims' words) -/

/-- From C1's words: cumulative positions `p₀ = b₀`,
`p_{i+1} = p_i + b_{i+1} + 1`, appending the ranges of `prev` with even
block index; returns the copied elements and the final position. -/
def claimBlocksCopy (prev : List Nat) : List Nat → Nat → Nat → List Nat × Nat
  | [], _, pos => ([], pos)
  | b :: rest, i, pos =>
    let q := pos + b + (if i = 0 then 0 else 1)
    let r := claimBlocksCopy prev rest (i + 1) q
    ((if i % 2 = 0 then listSlice prev pos q else []) ++ r.1, r.2)

/-- From C1's words: the even-indexed blocks of `prev`, plus the tail
`prev[p_{B-1}..]` exactly when the block count is even. -/
def claimCopy (prev : List Nat) (bs : List Nat) : List Nat :=
  let r := claimBlocksCopy prev bs 0 0
  r.1 ++ (if bs.length % 2 = 0 then prev.drop r.2 else [])

/-- From C2's words: each subsequent interval starts at the previous
interval's end plus 1 plus the next interval-start code, with length
(length code) + `L_min`; `pend` is the previous interval's end. -/
def claimIntervalsFrom (min_interval_length : Nat) : Nat → List (Nat × Nat) → List Nat
  | _, [] => []
  | pend, (t, l) :: rest =>
    let s := pend + 1 + t
    List.range' s (l + min_interval_length) ++
      claimIntervalsFrom min_interval_length (s + (l + min_interval_length)) rest

/-- Flatten interval (start-gap, length) code-value pairs into the order in
which the interval loop consumes them. -/
def pairTokens : List (Nat × Nat) → List Nat
  | [] => []
  | (t, l) :: rest => t :: l :: pairTokens rest

/-- From C3's words: each subsequent successor is the previous one plus 1
plus the next residual code. -/
def claimResidualsFrom : Nat → List Nat → List Nat
  | _, [] => []
  | cur, t :: rest =>
    let nxt := cur + 1 + t
    nxt :: claimResidualsFrom nxt rest


/-! ## Helper lemmas -/

lemma readToken_cons (t : Nat) (ts : List Nat) : readToken (t :: ts) = (t, ts) := rfl

lemma sortNat_eq_insertionSort (l : List Nat) : sortNat l = List.insertionSort (· ≤ ·) l :=
  List.mergeSort_eq_insertionSort (· ≤ ·) l

lemma sortNat_sorted (l : List Nat) : List.Sorted (· ≤ ·) (sortNat l) := by
  rw [sortNat_eq_insertionSort]
  exact List.sorted_insertionSort (· ≤ ·) l

lemma decodeAfterIntervals_sorted (degree node_id : Nat) (res ts out ts₂ : List Nat)
    (h : decodeAfterIntervals degree node_id res ts = some (out, ts₂)) :
    List.Sorted (· ≤ ·) out := by
  unfold decodeAfterIntervals at h
  by_cases hlt : degree < res.length
  · rw [if_pos hlt] at h
    exact absurd h (by simp)
  · rw [if_neg hlt] at h
    simp only [Option.some.injEq, Prod.mk.injEq] at h
    rw [← h.1]
    exact sortNat_sorted _

lemma decodeAfterCopy_sorted (degree min_interval_length node_id : Nat)
    (res ts out ts₂ : List Nat)
    (h : decodeAfterCopy degree min_interval_length node_id res ts = some (out, ts₂)) :
    List.Sorted (· ≤ ·) out := by
  unfold decodeAfterCopy at h
  by_cases hlt : degree < res.length
  · rw [if_pos hlt] at h
    exact absurd h (by simp)
  · rw [if_neg hlt] at h
    exact decodeAfterIntervals_sorted _ _ _ _ _ _ h

/-! ## Claims about the bit reader: C5, C9, C7 -/

/-- Claim C5: for both bit orders of the unbuffered bit reader,
`read_bits(0)` succeeds and returns 0 at any position; `read_bits(n)` with
`n > 64` fails with a `BadArgument` error; and for every `n ≤ 64` both
`read_bits` and `peek_bits` return a value, never an error (the backing
word stream is an infinite total function, so no other failure kind is
produced). -/
theorem read_bits_error_behavior (stream : Nat → Nat) (p : Nat) :
    (readBitsM2L stream p 0 = .ok (0, p) ∧ readBitsL2M stream p 0 = .ok (0, p)) ∧
    (∀ n, 64 < n →
      readBitsM2L stream p n = .error .badArgument ∧
      peekBitsM2L stream p n = .error .badArgument ∧
      readBitsL2M stream p n = .error .badArgument ∧
      peekBitsL2M stream p n = .error .badArgument) ∧
    (∀ n, n ≤ 64 →
      ∃ v, peekBitsM2L stream p n = .ok v ∧ readBitsM2L stream p n = .ok (v, p + n)) ∧
    (∀ n, n ≤ 64 →
      ∃ v, peekBitsL2M stream p n = .ok v ∧ readBitsL2M stream p n = .ok (v, p + n)) := by
  refine ⟨⟨rfl, rfl⟩, ?_, ?_, ?_⟩
  · intro n hn
    simp only [readBitsM2L, peekBitsM2L, readBitsL2M, peekBitsL2M, if_pos hn]
    exact ⟨rfl, trivial, rfl, trivial⟩
  · intro n hn
    by_cases h0 : n = 0
    · subst h0
      exact ⟨0, rfl, rfl⟩
    · simp only [readBitsM2L, peekBitsM2L, if_neg (show ¬ 64 < n by omega), if_neg h0]
      by_cases ho : p % 64 + n ≤ 64
      · rw [if_pos ho]
        exact ⟨_, rfl, rfl⟩
      · rw [if_neg ho]
        exact ⟨_, rfl, rfl⟩
  · intro n hn
    by_cases h0 : n = 0
    · subst h0
      exact ⟨0, rfl, rfl⟩
    · simp only [readBitsL2M, peekBitsL2M, if_neg (show ¬ 64 < n by omega), if_neg h0]
      by_cases ho : p % 64 + n ≤ 64
      · rw [if_pos ho]
        exact ⟨_, rfl, rfl⟩
      · rw [if_neg ho]
        exact ⟨_, rfl, rfl⟩

/-- Witness for C5 at concrete inputs. -/
theorem read_bits_error_behavior_witness :
    readBitsM2L (fun _ => 0) 0 65 = .error .badArgument ∧
    ∃ v, peekBitsL2M (fun _ => 0) 0 64 = .ok v := by
  refine ⟨((read_bits_error_behavior (fun _ => 0) 0).2.1 65 (by decide)).1, ?_⟩
  obtain ⟨v, hv, -⟩ := (read_bits_error_behavior (fun _ => 0) 0).2.2.2 64 (by decide)
  exact ⟨v, hv⟩

/-- Claim C9: for both bit orders and every argument `n` (including
`n > 64` — unlike `read_bits`, there is no argument validation),
`skip_bits(n)` never returns an error and advances the bit position by
exactly `n`. -/
theorem skip_bits_never_fails (p n : Nat) :
    skipBitsM2L p n = .ok (p + n) ∧ skipBitsL2M p n = .ok (p + n) :=
  ⟨rfl, rfl⟩

/-- Claim C7: for every bit position `p`, seeking to `p` and then reading
(read_bits, peek_bits or read_unary) yields the same value as reaching `p`
by any sequence of linear reads and skips and then performing the same
read: the result depends only on the current bit position and the
immutable backing.  Stated for both bit orders. -/
theorem seek_then_read_eq_linear_read (stream : Nat → Nat) (p n fuel : Nat) (s : UBitState) :
    (∀ (s₀ s₁ : UBitState) (ops : List LinStep),
      runM2L stream s₀ ops = some s₁ → get_position s₁ = p →
        readBitsM2L stream (seek_bit s p).bit_idx n = readBitsM2L stream s₁.bit_idx n ∧
        peekBitsM2L stream (seek_bit s p).bit_idx n = peekBitsM2L stream s₁.bit_idx n ∧
        readUnaryM2L stream (seek_bit s p).bit_idx fuel = readUnaryM2L stream s₁.bit_idx fuel) ∧
    (∀ (s₀ s₁ : UBitState) (ops : List LinStep),
      runL2M stream s₀ ops = some s₁ → get_position s₁ = p →
        readBitsL2M stream (seek_bit s p).bit_idx n = readBitsL2M stream s₁.bit_idx n ∧
        peekBitsL2M stream (seek_bit s p).bit_idx n = peekBitsL2M stream s₁.bit_idx n ∧
        readUnaryL2M stream (seek_bit s p).bit_idx fuel = readUnaryL2M stream s₁.bit_idx fuel) := by
  constructor <;>
  · intro s₀ s₁ ops _ hpos
    have hseek : (seek_bit s p).bit_idx = s₁.bit_idx := by
      simp only [seek_bit, get_position] at *
      omega
    rw [hseek]
    exact ⟨rfl, rfl, rfl⟩

/-- Witness for C7: position 3 reached by a linear skip versus a seek. -/
theorem seek_then_read_eq_linear_read_witness :
    readBitsM2L (fun _ => 0) (seek_bit ⟨0⟩ 3).bit_idx 5 =
      readBitsM2L (fun _ => 0) (UBitState.mk 3).bit_idx 5 :=
  (((seek_then_read_eq_linear_read (fun _ => 0) 3 5 1 ⟨0⟩).1
    ⟨0⟩ ⟨3⟩ [.skipStep 3] rfl rfl)).1

/-! ## Claim C4: the merge step -/

/-- Claim C4 counterexample: the merge step is `results.sort()`, which
sorts but does not remove duplicates, so for arbitrary decoded inputs the
emitted list need not be strictly increasing.  Node 0, window 0,
minimum interval length 1, decoded code values `[2, 1, 0, 0, 0]`
(degree 2; one interval `[0, 1)`; one residual 0) yield `[0, 0]`. -/
theorem merge_not_strictly_increasing :
    getSuccessorsIterPriv 0 1 (fun _ => []) 0 [2, 1, 0, 0, 0] = some ([0, 0], []) ∧
    ¬ List.Chain' (· < ·) [0, 0] := by
  constructor
  · rw [show getSuccessorsIterPriv 0 1 (fun _ => []) 0 [2, 1, 0, 0, 0] =
        some (sortNat [0, 0], []) from rfl]
    rw [sortNat_eq_insertionSort]
    rfl
  · intro hc
    rw [List.chain'_cons] at hc
    exact absurd hc.1 (lt_irrefl 0)

/-- Claim C4 (amended): for arbitrary decoded inputs, every successor list
emitted by `get_successors_iter_priv` is sorted in non-decreasing order —
an output invariant of the final merge (`results.sort()`), not an input
assumption — but duplicates are possible, so the order is not strict in
general. -/
theorem merge_output_sorted (compression_window min_interval_length : Nat)
    (window : Nat → List Nat) (node_id : Nat) (ts res ts₂ : List Nat)
    (h : getSuccessorsIterPriv compression_window min_interval_length window node_id ts =
      some (res, ts₂)) :
    List.Sorted (· ≤ ·) res := by
  unfold getSuccessorsIterPriv at h
  by_cases hdeg : (readToken ts).1 = 0
  · rw [if_pos hdeg] at h
    simp only [Option.some.injEq, Prod.mk.injEq] at h
    rw [← h.1]
    exact List.sorted_nil
  · rw [if_neg hdeg] at h
    rw [Option.bind_eq_some] at h
    obtain ⟨r, -, hr⟩ := h
    exact decodeAfterCopy_sorted _ _ _ _ _ _ _ hr

/-- Witness for C4's amended theorem at a concrete input (degree 0). -/
theorem merge_output_sorted_witness : List.Sorted (· ≤ ·) ([] : List Nat) :=
  merge_output_sorted 0 0 (fun _ => []) 0 [] [] [] rfl


/-! ## Claims about the iterator: C8, C10 -/

lemma iterNext_spec (s : IterState) (y : Nat × List Nat) (s₂ : IterState)
    (h : iterNext s = some (y, s₂)) :
    y.1 = s.current_node ∧ s₂.current_node = s.current_node + 1 ∧
      s₂.number_of_nodes = s.number_of_nodes ∧ s.current_node < s.number_of_nodes := by
  unfold iterNext at h
  by_cases hend : s.number_of_nodes ≤ s.current_node
  · rw [if_pos hend] at h
    exact absurd h (by simp)
  · rw [if_neg hend] at h
    rw [Option.map_eq_some'] at h
    obtain ⟨r, -, hr⟩ := h
    injection hr with h1 h2
    rw [← h1, ← h2]
    exact ⟨rfl, rfl, rfl, by omega⟩

lemma runIter_spec (k : Nat) : ∀ (s : IterState) (ys : List (Nat × List Nat)) (s₂ : IterState),
    runIter s k = some (ys, s₂) →
    ys.map Prod.fst = List.range' s.current_node k ∧
      s₂.current_node = s.current_node + k ∧
      s₂.number_of_nodes = s.number_of_nodes := by
  induction k with
  | zero =>
    intro s ys s₂ h
    simp only [runIter, Option.some.injEq, Prod.mk.injEq] at h
    obtain ⟨rfl, rfl⟩ := h
    simp [List.range']
  | succ k ih =>
    intro s ys s₂ h
    simp only [runIter] at h
    rw [Option.bind_eq_some] at h
    obtain ⟨y, hy, h⟩ := h
    rw [Option.map_eq_some'] at h
    obtain ⟨r, hr, h⟩ := h
    simp only [Prod.mk.injEq] at h
    obtain ⟨h1, h2⟩ := h
    subst h1
    subst h2
    obtain ⟨hy1, hy2, hy3, hy4⟩ := iterNext_spec s y.1 y.2 hy
    obtain ⟨ih1, ih2, ih3⟩ := ih y.2 r.1 r.2 hr
    refine ⟨?_, by omega, by omega⟩
    rw [List.map_cons, ih1, hy1, hy2, List.range'_succ]

/-- Claim C8: for one sequential iterator started at node 0, the yielded
node identifiers are exactly 0, 1, …, N-1 in that order (strictly
ascending), and once the N-th node has been yielded every further call to
`next` returns `None`. -/
theorem iterator_yields_ascending (s₀ : IterState) (ys : List (Nat × List Nat))
    (s₁ : IterState) (h0 : s₀.current_node = 0)
    (h : runIter s₀ s₀.number_of_nodes = some (ys, s₁)) :
    ys.map Prod.fst = List.range s₀.number_of_nodes ∧ iterNext s₁ = none := by
  obtain ⟨h1, h2, h3⟩ := runIter_spec s₀.number_of_nodes s₀ ys s₁ h
  constructor
  · rw [h1, h0, List.range_eq_range']
  · unfold iterNext
    rw [if_pos (by omega)]

/-- Witness for C8: a one-node graph with an empty token stream (degree 0). -/
theorem iterator_yields_ascending_witness :
    [((0 : Nat), ([] : List Nat))].map Prod.fst = List.range 1 ∧
      iterNext ⟨[], fun u => if u = 0 then [] else [], 0, 0, 1, 1⟩ = none :=
  iterator_yields_ascending ⟨[0], fun _ => [], 0, 0, 1, 0⟩
    [((0 : Nat), ([] : List Nat))] ⟨[], fun u => if u = 0 then [] else [], 0, 0, 1, 1⟩
    rfl rfl

lemma runIter_split (a : Nat) : ∀ (b : Nat) (s : IterState)
    (ys : List (Nat × List Nat)) (s₂ : IterState),
    runIter s (a + b) = some (ys, s₂) →
    ∃ ys₁ s₁ ys₂, runIter s a = some (ys₁, s₁) ∧ runIter s₁ b = some (ys₂, s₂) ∧
      ys = ys₁ ++ ys₂ ∧ ys₁.length = a := by
  induction a with
  | zero =>
    intro b s ys s₂ h
    exact ⟨[], s, ys, rfl, by simpa using h, rfl, rfl⟩
  | succ a ih =>
    intro b s ys s₂ h
    rw [show a + 1 + b = (a + b) + 1 by omega] at h
    simp only [runIter] at h
    rw [Option.bind_eq_some] at h
    obtain ⟨y, hy, h⟩ := h
    rw [Option.map_eq_some'] at h
    obtain ⟨r, hr, h⟩ := h
    simp only [Prod.mk.injEq] at h
    obtain ⟨h1, h2⟩ := h
    subst h1
    subst h2
    obtain ⟨ys₁, s₁, ys₂, k1, k2, k3, k4⟩ := ih b y.2 r.1 r.2 hr
    refine ⟨y.1 :: ys₁, s₁, ys₂, ?_, k2, by simp [k3], by simp [k4]⟩
    simp only [runIter, hy, Option.some_bind, k1, Option.map_some']

lemma skipNode_of_iterNext (s : IterState) (y : Nat × List Nat) (s₂ : IterState)
    (h : iterNext s = some (y, s₂)) : skipNode s = some s₂ := by
  unfold iterNext at h
  by_cases hend : s.number_of_nodes ≤ s.current_node
  · rw [if_pos hend] at h
    exact absurd h (by simp)
  · rw [if_neg hend] at h
    rw [Option.map_eq_some'] at h
    obtain ⟨r, hr, hr2⟩ := h
    unfold skipNode
    rw [if_neg hend, hr, Option.map_some']
    injection hr2 with h1 h2
    rw [h2]

lemma iterFrom_of_runIter (a : Nat) : ∀ (s : IterState)
    (ys : List (Nat × List Nat)) (s₁ : IterState),
    runIter s a = some (ys, s₁) → iterFrom s a = some s₁ := by
  induction a with
  | zero =>
    intro s ys s₁ h
    simp only [runIter, Option.some.injEq, Prod.mk.injEq] at h
    rw [iterFrom, h.2]
  | succ a ih =>
    intro s ys s₁ h
    simp only [runIter] at h
    rw [Option.bind_eq_some] at h
    obtain ⟨y, hy, h⟩ := h
    rw [Option.map_eq_some'] at h
    obtain ⟨r, hr, hr2⟩ := h
    simp only [Prod.mk.injEq] at hr2
    unfold iterFrom
    rw [skipNode_of_iterNext s y.1 y.2 hy, Option.some_bind, ← hr2.2]
    exact ih y.2 r.1 r.2 hr

/-- Claim C10: `iter_from(from)` — a fresh sequential iterator with the
first `from` nodes decoded and discarded — reaches exactly the state of a
full sequential scan after `from` nodes (same token position and same
backref window), so it yields exactly the pairs of the full scan
restricted to nodes `from, from+1, …`. -/
theorem iter_from_matches_full_scan (s₀ : IterState) (f m : Nat)
    (ys : List (Nat × List Nat)) (s₂ : IterState)
    (h : runIter s₀ (f + m) = some (ys, s₂)) :
    ∃ s₁, iterFrom s₀ f = some s₁ ∧ runIter s₁ m = some (ys.drop f, s₂) := by
  obtain ⟨ys₁, s₁, ys₂, k1, k2, k3, k4⟩ := runIter_split f m s₀ ys s₂ h
  refine ⟨s₁, iterFrom_of_runIter f s₀ ys₁ s₁ k1, ?_⟩
  rw [k3, ← k4, List.drop_left]
  exact k2

/-- Witness for C10: skipping one node of a one-node graph. -/
theorem iter_from_matches_full_scan_witness :
    ∃ s₁, iterFrom ⟨[0], fun _ => [], 0, 0, 1, 0⟩ 1 = some s₁ ∧
      runIter s₁ 0 = some (List.drop 1 [((0 : Nat), ([] : List Nat))],
        ⟨[], fun u => if u = 0 then [] else [], 0, 0, 1, 1⟩) :=
  iter_from_matches_full_scan ⟨[0], fun _ => [], 0, 0, 1, 0⟩ 1 0
    [((0 : Nat), ([] : List Nat))] ⟨[], fun u => if u = 0 then [] else [], 0, 0, 1, 1⟩ rfl


/-! ## Claim C3: residuals -/

lemma residualsLoop_spec (gaps : List Nat) : ∀ (extra : Nat) (acc rest : List Nat),
    residualsLoop gaps.length extra acc (gaps ++ rest) =
      (acc ++ claimResidualsFrom extra gaps, rest) := by
  induction gaps with
  | nil =>
    intro extra acc rest
    simp [residualsLoop, claimResidualsFrom]
  | cons t gs ih =>
    intro extra acc rest
    simp only [List.length_cons, List.cons_append, residualsLoop, readToken_cons]
    rw [ih]
    simp [claimResidualsFrom, List.append_assoc]

/-- Claim C3: in the decode of node `v`, residuals are read only when the
partial result still has fewer than `degree` elements, exactly
`degree - |S|` residual code values are consumed, the first residual is
`v + nat2int(first code)` (as a wrapped `usize`; equal to the plain sum
when it is a representable non-negative value), and each subsequent
successor is the previous one plus 1 plus the next residual code. -/
theorem residual_step_semantics (v : Nat) :
    (∀ (count t0 : Nat) (gaps rest : List Nat), gaps.length + 1 = count →
      residualPhase v count (t0 :: gaps ++ rest) =
        (wrapUsize ((v : Int) + nat2int t0) ::
          claimResidualsFrom (wrapUsize ((v : Int) + nat2int t0)) gaps, rest)) ∧
    (∀ t0 : Nat, 0 ≤ (v : Int) + nat2int t0 → (v : Int) + nat2int t0 < 2 ^ 64 →
      wrapUsize ((v : Int) + nat2int t0) = ((v : Int) + nat2int t0).toNat) ∧
    (∀ (degree w : Nat) (res ts : List Nat), degree ≤ res.length →
      decodeAfterIntervals degree w res ts =
        if degree < res.length then none else some (sortNat res, ts)) ∧
    (∀ (degree w : Nat) (res ts : List Nat), res.length < degree →
      decodeAfterIntervals degree w res ts =
        some (sortNat (res ++ (residualPhase w (degree - res.length) ts).1),
          (residualPhase w (degree - res.length) ts).2)) := by
  refine ⟨?_, ?_, ?_, ?_⟩
  · intro count t0 gaps rest hc
    simp only [residualPhase, List.cons_append, readToken_cons]
    rw [show count - 1 = gaps.length by omega, residualsLoop_spec]
    simp
  · intro t0 h0 h64
    unfold wrapUsize
    rw [Int.emod_eq_of_lt h0 h64]
  · intro degree w res ts hle
    by_cases hlt : degree < res.length
    · unfold decodeAfterIntervals
      rw [if_pos hlt, if_pos hlt]
    · unfold decodeAfterIntervals
      rw [if_neg hlt, if_neg hlt]
      have hz : degree - res.length = 0 := by omega
      simp [hz]
  · intro degree w res ts hlt
    unfold decodeAfterIntervals
    rw [if_neg (by omega)]
    have hnz : degree - res.length ≠ 0 := by omega
    simp [hnz]

/-- Witness for C3: node 10, three residuals from code values 3, 0, 4. -/
theorem residual_step_semantics_witness :
    residualPhase 10 3 (3 :: [0, 4] ++ [55]) =
      (wrapUsize ((10 : Int) + nat2int 3) ::
        claimResidualsFrom (wrapUsize ((10 : Int) + nat2int 3)) [0, 4], [55]) :=
  (residual_step_semantics 10).1 3 3 [0, 4] [55] rfl


/-! ## Claim C2: intervals -/

lemma intervalsLoop_spec (L : Nat) (ps : List (Nat × Nat)) : ∀ (pend : Nat) (acc rest : List Nat),
    intervalsLoop L ps.length pend acc (pairTokens ps ++ rest) =
      (acc ++ claimIntervalsFrom L pend ps, rest) := by
  induction ps with
  | nil =>
    intro pend acc rest
    simp [intervalsLoop, claimIntervalsFrom, pairTokens]
  | cons q qs ih =>
    intro pend acc rest
    obtain ⟨t, l⟩ := q
    simp only [pairTokens, List.length_cons, List.cons_append, intervalsLoop, readToken_cons]
    rw [ih]
    simp [claimIntervalsFrom, List.append_assoc]

/-- Claim C2: the interval step of the decode of node `v` runs only when
the partial result still has fewer than `degree` elements and
`min_interval_length > 0`; it reads the interval count `I`, and when
`I > 0` the first interval starts at `v + nat2int(first start code)` (as a
wrapped `usize`; equal to the plain sum when it is a representable
non-negative value) with length `(first length code) + L_min`, pushed as a
half-open range, and each subsequent interval starts at the previous
interval's end plus 1 plus the next start code, with length
`(length code) + L_min`. -/
theorem interval_step_semantics (v L : Nat) :
    (∀ rest : List Nat, intervalPhase v L (0 :: rest) = ([], rest)) ∧
    (∀ (I t0 l0 : Nat) (ps : List (Nat × Nat)) (rest : List Nat), I = ps.length + 1 →
      intervalPhase v L (I :: t0 :: l0 :: pairTokens ps ++ rest) =
        (List.range' (wrapUsize ((v : Int) + nat2int t0)) (l0 + L) ++
          claimIntervalsFrom L (wrapUsize ((v : Int) + nat2int t0) + (l0 + L)) ps, rest)) ∧
    (∀ t0 : Nat, 0 ≤ (v : Int) + nat2int t0 → (v : Int) + nat2int t0 < 2 ^ 64 →
      wrapUsize ((v : Int) + nat2int t0) = ((v : Int) + nat2int t0).toNat) ∧
    (∀ (degree : Nat) (res ts : List Nat), ¬ (res.length < degree ∧ L ≠ 0) →
      decodeAfterCopy degree L v res ts = decodeAfterIntervals degree v res ts) ∧
    (∀ (degree : Nat) (res ts : List Nat), res.length < degree → L ≠ 0 →
      decodeAfterCopy degree L v res ts =
        decodeAfterIntervals degree v (res ++ (intervalPhase v L ts).1)
          (intervalPhase v L ts).2) := by
  refine ⟨?_, ?_, ?_, ?_, ?_⟩
  · intro rest
    simp [intervalPhase, readToken_cons]
  · intro I t0 l0 ps rest hI
    subst hI
    simp only [intervalPhase, List.cons_append, readToken_cons]
    rw [if_neg (by omega), show ps.length + 1 - 1 = ps.length from rfl, intervalsLoop_spec]
  · intro t0 h0 h64
    unfold wrapUsize
    rw [Int.emod_eq_of_lt h0 h64]
  · intro degree res ts hng
    by_cases hlt : degree < res.length
    · unfold decodeAfterCopy decodeAfterIntervals
      rw [if_pos hlt, if_pos hlt]
    · have hc : ¬ (degree - res.length ≠ 0 ∧ L ≠ 0) := by omega
      unfold decodeAfterCopy
      rw [if_neg hlt]
      simp only [if_neg hc]
  · intro degree res ts hlt hL
    have hc : degree - res.length ≠ 0 ∧ L ≠ 0 := by omega
    unfold decodeAfterCopy
    rw [if_neg (by omega)]
    simp only [if_pos hc]

/-- Witness for C2: node 10, minimum interval length 2, two intervals. -/
theorem interval_step_semantics_witness :
    intervalPhase 10 2 (2 :: 2 :: 1 :: pairTokens [(0, 0)] ++ [77]) =
      (List.range' (wrapUsize ((10 : Int) + nat2int 2)) (1 + 2) ++
        claimIntervalsFrom 2 (wrapUsize ((10 : Int) + nat2int 2) + (1 + 2)) [(0, 0)], [77]) :=
  (interval_step_semantics 10 2).2.1 2 2 1 [(0, 0)] [77] rfl


/-! ## Claim C1: reference copy -/

lemma claimBlocksCopy_pos_mono (prev : List Nat) (bs : List Nat) : ∀ (i pos : Nat),
    pos ≤ (claimBlocksCopy prev bs i pos).2 := by
  induction bs with
  | nil =>
    intro i pos
    simp [claimBlocksCopy]
  | cons b gs ih =>
    intro i pos
    simp only [claimBlocksCopy]
    exact le_trans (by omega) (ih (i + 1) (pos + b + if i = 0 then 0 else 1))

lemma blocksLoop_spec (prev : List Nat) (bs : List Nat) : ∀ (i idx : Nat) (acc rest : List Nat),
    0 < i →
    (claimBlocksCopy prev bs i idx).2 ≤ prev.length →
    blocksLoop prev bs.length i idx acc (bs ++ rest) =
      some (acc ++ (claimBlocksCopy prev bs i idx).1, (claimBlocksCopy prev bs i idx).2, rest) := by
  induction bs with
  | nil =>
    intro i idx acc rest hi hlen
    simp [blocksLoop, claimBlocksCopy]
  | cons b gs ih =>
    intro i idx acc rest hi hlen
    have hne : ¬ i = 0 := by omega
    simp only [claimBlocksCopy, if_neg hne] at hlen ⊢
    simp only [List.length_cons, List.cons_append, blocksLoop, readToken_cons]
    by_cases hpar : i % 2 = 0
    · rw [if_pos hpar]
      have hle : idx + b + 1 ≤ prev.length :=
        le_trans (claimBlocksCopy_pos_mono prev gs (i + 1) (idx + b + 1)) hlen
      rw [if_pos hle, ih (i + 1) (idx + b + 1) (acc ++ listSlice prev idx (idx + b + 1)) rest
        (by omega) hlen]
      simp [hpar, List.append_assoc]
    · rw [if_neg hpar, ih (i + 1) (idx + b + 1) acc rest (by omega) hlen]
      simp [hpar]

/-- Claim C1: in the decode of node `v` with reference offset `r > 0` and
reference list `prev = window[v - r]`: when the decoded block count is 0
all of `prev` is appended; otherwise `B` block lengths are read, the
cumulative positions `p₀ = b₀`, `p_{i+1} = p_i + b_{i+1} + 1` cut `prev`
into blocks, the blocks with even index are appended, and the tail
`prev[p_{B-1}..]` is appended exactly when `B` is even. -/
theorem reference_copy_semantics (window : Nat → List Nat) (v r : Nat) (prev : List Nat)
    (hr : 0 < r) (hrv : r ≤ v) (hw : window (v - r) = prev) :
    (∀ rest : List Nat, copyPhase window v r (0 :: rest) = some (prev, rest)) ∧
    (∀ (bs rest : List Nat), bs ≠ [] →
      (claimBlocksCopy prev bs 0 0).2 ≤ prev.length →
      copyPhase window v r (bs.length :: bs ++ rest) = some (claimCopy prev bs, rest)) := by
  constructor
  · intro rest
    simp [copyPhase, readToken_cons, hrv, hw]
  · intro bs rest hne hlen
    cases bs with
    | nil => exact absurd rfl hne
    | cons b0 gs =>
      have hlen2 : (claimBlocksCopy prev gs 1 b0).2 ≤ prev.length := by
        simpa [claimBlocksCopy] using hlen
      have hp0 : b0 ≤ prev.length :=
        le_trans (claimBlocksCopy_pos_mono prev gs 1 b0) hlen2
      simp only [copyPhase, List.length_cons, List.cons_append, readToken_cons,
        if_pos hrv, hw]
      rw [if_neg (Nat.succ_ne_zero gs.length), if_pos hp0,
        show gs.length + 1 - 1 = gs.length from rfl,
        blocksLoop_spec prev gs 1 b0 (prev.take b0) rest one_pos hlen2]
      simp only [Option.some_bind]
      by_cases hpar : (gs.length + 1) % 2 = 0
      · rw [if_pos hpar, if_pos hlen2]
        simp [claimCopy, claimBlocksCopy, hpar, listSlice, List.append_assoc]
      · rw [if_neg hpar]
        simp [claimCopy, claimBlocksCopy, hpar, listSlice, List.append_assoc]


/-- Witness for C1: node 5, reference offset 2, reference list
`[10, 20, 30, 40, 50]`, two blocks of decoded lengths 1 and 1. -/
theorem reference_copy_semantics_witness :
    copyPhase (fun _ => [10, 20, 30, 40, 50]) 5 2 ([1, 1].length :: [1, 1] ++ [99]) =
      some (claimCopy [10, 20, 30, 40, 50] [1, 1], [99]) :=
  (reference_copy_semantics (fun _ => [10, 20, 30, 40, 50]) 5 2 [10, 20, 30, 40, 50]
    (by decide) (by decide) rfl).2 [1, 1] [99] (by decide) (by decide)

/-! ## Claim C6: read_unary -/

lemma lzAux_eq_of_testBit (w : Nat) : ∀ (k z : Nat), z < k →
    (∀ j, j < z → w.testBit (k - 1 - j) = false) → w.testBit (k - 1 - z) = true →
    lzAux w k = z := by
  intro k
  induction k with
  | zero =>
    intro z hz _ _
    exact absurd hz (Nat.not_lt_zero z)
  | succ k ih =>
    intro z hz hzero hone
    unfold lzAux
    by_cases hb : w.testBit k = true
    · rcases Nat.eq_zero_or_pos z with rfl | hzpos
      · rw [if_pos hb]
      · have h0 := hzero 0 hzpos
        rw [show k + 1 - 1 - 0 = k by omega] at h0
        simp [h0] at hb
    · rcases Nat.eq_zero_or_pos z with rfl | hzpos
      · rw [show k + 1 - 1 - 0 = k by omega] at hone
        exact absurd hone hb
      · rw [if_neg hb, ih (z - 1) (by omega)
          (fun j hj => by
            have hjz := hzero (j + 1) (by omega)
            rwa [show k + 1 - 1 - (j + 1) = k - 1 - j by omega] at hjz)
          (by rwa [show k + 1 - 1 - z = k - 1 - (z - 1) by omega] at hone)]
        omega

lemma lzAux_eq_of_all_false (w : Nat) : ∀ (k : Nat),
    (∀ j, j < k → w.testBit (k - 1 - j) = false) → lzAux w k = k := by
  intro k
  induction k with
  | zero => intro _; rfl
  | succ k ih =>
    intro hzero
    unfold lzAux
    have h0 := hzero 0 (by omega)
    rw [show k + 1 - 1 - 0 = k by omega] at h0
    rw [if_neg (by simp [h0]), ih (fun j hj => by
      have hjz := hzero (j + 1) (by omega)
      rwa [show k + 1 - 1 - (j + 1) = k - 1 - j by omega] at hjz)]
    omega

lemma ctzFrom_eq_of_testBit (w : Nat) : ∀ (fuel z i : Nat), z < fuel →
    (∀ j, j < z → w.testBit (i + j) = false) → w.testBit (i + z) = true →
    ctzFrom w i fuel = z := by
  intro fuel
  induction fuel with
  | zero =>
    intro z i hz _ _
    exact absurd hz (Nat.not_lt_zero z)
  | succ fuel ih =>
    intro z i hz hzero hone
    unfold ctzFrom
    by_cases hb : w.testBit i = true
    · rcases Nat.eq_zero_or_pos z with rfl | hzpos
      · rw [if_pos hb]
      · have h0 := hzero 0 hzpos
        rw [Nat.add_zero] at h0
        simp [h0] at hb
    · rcases Nat.eq_zero_or_pos z with rfl | hzpos
      · rw [Nat.add_zero] at hone
        exact absurd hone hb
      · rw [if_neg hb, ih (z - 1) (i + 1) (by omega)
          (fun j hj => by
            have hjz := hzero (j + 1) (by omega)
            rwa [show i + (j + 1) = i + 1 + j by omega] at hjz)
          (by rwa [show i + z = i + 1 + (z - 1) by omega] at hone)]
        omega

lemma ctzFrom_eq_of_all_false (w : Nat) : ∀ (fuel i : Nat),
    (∀ j, j < fuel → w.testBit (i + j) = false) → ctzFrom w i fuel = fuel := by
  intro fuel
  induction fuel with
  | zero => intro i _; rfl
  | succ fuel ih =>
    intro i hzero
    unfold ctzFrom
    have h0 := hzero 0 (by omega)
    rw [Nat.add_zero] at h0
    rw [if_neg (by simp [h0]), ih (i + 1) (fun j hj => by
      have hjz := hzero (j + 1) (by omega)
      rwa [show i + (j + 1) = i + 1 + j by omega] at hjz)]
    omega


lemma unaryLoopM2L_spec (stream : Nat → Nat) (p z : Nat)
    (hs : ∀ i, stream i < 2 ^ 64)
    (hz : ∀ j, j < z → bitM2L stream (p + j) = false)
    (ho : bitM2L stream (p + z) = true) :
    ∀ (fuel word bits_in_word total widx : Nat),
      0 < bits_in_word → bits_in_word ≤ 64 →
      p + total + bits_in_word = 64 * widx →
      (∀ j, j < bits_in_word → word.testBit (63 - j) = bitM2L stream (p + total + j)) →
      (∀ j, bits_in_word ≤ j → j < 64 → word.testBit (63 - j) = false) →
      total ≤ z →
      z - total < fuel →
      unaryLoopM2L stream fuel word bits_in_word total widx = some z := by
  intro fuel
  induction fuel with
  | zero =>
    intro word bits total widx _ _ _ _ _ _ hfuel
    exact absurd hfuel (by omega)
  | succ fuel ih =>
    intro word bits total widx hb0 hb64 halign hinvA hinvB htot hfuel
    simp only [unaryLoopM2L]
    by_cases hcase : z - total < bits
    · have hlz : leadingZeros64 word = z - total := by
        unfold leadingZeros64
        apply lzAux_eq_of_testBit
        · omega
        · intro j hj
          rw [show 64 - 1 - j = 63 - j by omega, hinvA j (by omega), Nat.add_assoc]
          exact hz (total + j) (by omega)
        · rw [show 64 - 1 - (z - total) = 63 - (z - total) by omega,
            hinvA (z - total) (by omega), show p + total + (z - total) = p + z by omega]
          exact ho
      rw [hlz, if_pos hcase, show total + (z - total) = z by omega]
    · have hlz : leadingZeros64 word = 64 := by
        unfold leadingZeros64
        apply lzAux_eq_of_all_false
        intro j hj
        rw [show 64 - 1 - j = 63 - j by omega]
        by_cases hjb : j < bits
        · rw [hinvA j hjb, Nat.add_assoc]
          exact hz (total + j) (by omega)
        · exact hinvB j (by omega) hj
      rw [hlz, if_neg (by omega)]
      refine ih (stream widx) 64 (total + bits) (widx + 1) (by omega) le_rfl (by omega)
        ?_ ?_ (by omega) (by omega)
      · intro j hj
        unfold bitM2L
        have h1 : (p + (total + bits) + j) / 64 = widx := by omega
        have h2 : (p + (total + bits) + j) % 64 = j := by omega
        rw [h1, h2]
      · intro j hj1 hj2
        exact absurd hj2 (by omega)

lemma readUnaryM2L_spec (stream : Nat → Nat) (p z fuel : Nat)
    (hs : ∀ i, stream i < 2 ^ 64)
    (hz : ∀ j, j < z → bitM2L stream (p + j) = false)
    (ho : bitM2L stream (p + z) = true)
    (hf : z < fuel) :
    readUnaryM2L stream p fuel = some (z, p + z + 1) := by
  simp only [readUnaryM2L]
  rw [unaryLoopM2L_spec stream p z hs hz ho fuel
    ((stream (p / 64) <<< (p % 64)) % 2 ^ 64) (64 - p % 64) 0 (p / 64 + 1)
    (by omega) (by omega) (by omega) ?_ ?_ (by omega) (by omega)]
  · rfl
  · intro j hj
    unfold bitM2L
    have h1 : (p + 0 + j) / 64 = p / 64 := by omega
    have h2 : (p + 0 + j) % 64 = p % 64 + j := by omega
    rw [h1, h2, Nat.testBit_mod_two_pow, Nat.testBit_shiftLeft]
    have h3 : 63 - j < 64 := by omega
    have h4 : 63 - j ≥ p % 64 := by omega
    have h5 : 63 - j - p % 64 = 63 - (p % 64 + j) := by omega
    simp [h3, h4, h5]
  · intro j hj1 hj2
    rw [Nat.testBit_mod_two_pow, Nat.testBit_shiftLeft]
    have h4 : ¬ (63 - j ≥ p % 64) := by omega
    simp [h4]

lemma unaryLoopL2M_spec (stream : Nat → Nat) (p z : Nat)
    (hs : ∀ i, stream i < 2 ^ 64)
    (hz : ∀ j, j < z → bitL2M stream (p + j) = false)
    (ho : bitL2M stream (p + z) = true) :
    ∀ (fuel word bits_in_word total widx : Nat),
      0 < bits_in_word → bits_in_word ≤ 64 →
      p + total + bits_in_word = 64 * widx →
      (∀ j, j < bits_in_word → word.testBit j = bitL2M stream (p + total + j)) →
      (∀ j, bits_in_word ≤ j → word.testBit j = false) →
      total ≤ z →
      z - total < fuel →
      unaryLoopL2M stream fuel word bits_in_word total widx = some z := by
  intro fuel
  induction fuel with
  | zero =>
    intro word bits total widx _ _ _ _ _ _ hfuel
    exact absurd hfuel (by omega)
  | succ fuel ih =>
    intro word bits total widx hb0 hb64 halign hinvA hinvB htot hfuel
    simp only [unaryLoopL2M]
    by_cases hcase : z - total < bits
    · have hctz : trailingZeros64 word = z - total := by
        unfold trailingZeros64
        apply ctzFrom_eq_of_testBit
        · omega
        · intro j hj
          rw [Nat.zero_add, hinvA j (by omega), Nat.add_assoc]
          exact hz (total + j) (by omega)
        · rw [Nat.zero_add, hinvA (z - total) (by omega),
            show p + total + (z - total) = p + z by omega]
          exact ho
      rw [hctz, if_pos hcase, show total + (z - total) = z by omega]
    · have hctz : trailingZeros64 word = 64 := by
        unfold trailingZeros64
        apply ctzFrom_eq_of_all_false
        intro j hj
        rw [Nat.zero_add]
        by_cases hjb : j < bits
        · rw [hinvA j hjb, Nat.add_assoc]
          exact hz (total + j) (by omega)
        · exact hinvB j (by omega)
      rw [hctz, if_neg (by omega)]
      refine ih (stream widx) 64 (total + bits) (widx + 1) (by omega) le_rfl (by omega)
        ?_ ?_ (by omega) (by omega)
      · intro j hj
        unfold bitL2M
        have h1 : (p + (total + bits) + j) / 64 = widx := by omega
        have h2 : (p + (total + bits) + j) % 64 = j := by omega
        rw [h1, h2]
      · intro j hj
        exact Nat.testBit_lt_two_pow
          (lt_of_lt_of_le (hs widx) (Nat.pow_le_pow_right (by omega) hj))

lemma readUnaryL2M_spec (stream : Nat → Nat) (p z fuel : Nat)
    (hs : ∀ i, stream i < 2 ^ 64)
    (hz : ∀ j, j < z → bitL2M stream (p + j) = false)
    (ho : bitL2M stream (p + z) = true)
    (hf : z < fuel) :
    readUnaryL2M stream p fuel = some (z, p + z + 1) := by
  simp only [readUnaryL2M]
  rw [unaryLoopL2M_spec stream p z hs hz ho fuel
    (stream (p / 64) >>> (p % 64)) (64 - p % 64) 0 (p / 64 + 1)
    (by omega) (by omega) (by omega) ?_ ?_ (by omega) (by omega)]
  · rfl
  · intro j hj
    unfold bitL2M
    have h1 : (p + 0 + j) / 64 = p / 64 := by omega
    have h2 : (p + 0 + j) % 64 = p % 64 + j := by omega
    rw [h1, h2, Nat.testBit_shiftRight]
  · intro j hj
    rw [Nat.testBit_shiftRight]
    exact Nat.testBit_lt_two_pow
      (lt_of_lt_of_le (hs (p / 64)) (Nat.pow_le_pow_right (by omega) (by omega)))

/-- Claim C6: for every bit position `p` and every 64-bit word stream,
`read_unary()` returns exactly the number `z` of consecutive zero bits
before the next one bit — leading (MSB-first) zeros in the M2L flavour,
trailing (LSB-first) zeros in the L2M flavour — and advances the bit
position to `p + z + 1`, just past the terminating one bit, including when
the code spans several words (any `z`, given enough loop fuel). -/
theorem read_unary_counts_zeros (stream : Nat → Nat) (p z fuel : Nat)
    (hs : ∀ i, stream i < 2 ^ 64) (hf : z < fuel) :
    ((∀ j, j < z → bitM2L stream (p + j) = false) → bitM2L stream (p + z) = true →
      readUnaryM2L stream p fuel = some (z, p + z + 1)) ∧
    ((∀ j, j < z → bitL2M stream (p + j) = false) → bitL2M stream (p + z) = true →
      readUnaryL2M stream p fuel = some (z, p + z + 1)) :=
  ⟨fun hz ho => readUnaryM2L_spec stream p z fuel hs hz ho hf,
   fun hz ho => readUnaryL2M_spec stream p z fuel hs hz ho hf⟩

/-- Witness for C6: unary codes spanning two words — 59 zero bits in the
first word then 63 more in the second, from bit position 5. -/
theorem read_unary_counts_zeros_witness :
    readUnaryM2L (fun i => if i = 0 then 0 else 1) 5 200 = some (122, 128) ∧
    readUnaryL2M (fun i => if i = 0 then 0 else 2 ^ 63) 5 200 = some (122, 128) := by
  constructor
  · exact (read_unary_counts_zeros (fun i => if i = 0 then 0 else 1) 5 122 200
      (fun i => by dsimp only; split <;> decide) (by decide)).1
      (fun j hj => by revert j hj; decide) (by decide)
  · exact (read_unary_counts_zeros (fun i => if i = 0 then 0 else 2 ^ 63) 5 122 200
      (fun i => by dsimp only; split <;> decide) (by decide)).2
      (fun j hj => by revert j hj; decide) (by decide)

end Webgraph
